import Mathlib

/-!
Verification of the 128-bit division-constant generator
(`lexical-util/etc/div128.py`).

The script derives, for each radix in `[2, 36]`, the constants needed to
replace a 128-bit division by a constant divisor (a power of the radix)
with a multiply-and-shift sequence, and `udiv128` performs that division
using the derived constants.

Shallow embedding conventions:
* Python arbitrary-precision non-negative integers are `ℕ`; `//` is `Nat`
  division, `%` is `Nat.mod`, `x & ((1 << 64) - 1)` is `x % 2^64`,
  `x >> k` is `x / 2^k`, and `1 << k` is `2^k`.
* Python's true division `/` (used once, in `is_valid`) is embedded as
  exact division in `ℚ`; the floating-point rounding questions raised by
  the source's use of `float` and `math.log`/`math.log2` are treated
  separately and are not part of this embedding.
* The two `while` loops whose bound is not structural (`find_power`'s
  climb and `fast_shift`'s trailing-zero scan) are embedded with an
  explicit fuel parameter that is large enough for every reachable input;
  fuel-indifference (termination) is proved below.
* `math.floor(math.log(n, b))` and `math.ceil(math.log2(d))` are embedded
  as the exact integer floor/ceiling logarithms `floorLog` / `ceilLog2`,
  computed by bounded search.
-/

/-- Source line 18: `u64_max = 2**64 - 1`. -/
def u64_max : ℕ := 2^64 - 1

/-- Source line 19: `u128_max = 2**128-1`. -/
def u128_max : ℕ := 2^128 - 1

/-- Source lines 21-26, `is_valid(x)`: `x <= u64_max and (u128_max / (x**2)) < x`.
The square `x**2` is computed in integers; the division `/` is Python true
division, embedded as exact division in `ℚ`. -/
def is_valid (x : ℕ) : Bool :=
  decide (x ≤ u64_max) && decide ((u128_max : ℚ) / ((x^2 : ℕ) : ℚ) < (x : ℚ))

/-- Fuel-indexed loop of `find_power` (source lines 32-33):
`while is_valid(radix**start_power): start_power += 1`, returning the first
power at which the guard fails. -/
def findPowerLoop (radix : ℕ) : ℕ → ℕ → ℕ
  | 0, p => p
  | fuel+1, p => if is_valid (radix ^ p) then findPowerLoop radix fuel (p+1) else p

/-- Bounded search computing `max {k | b^(k+1) ≤ n} ∪ {0}` step by step:
the exact value of `int(math.floor(math.log(n, b)))` for `2 ≤ b`, `1 ≤ n`
in the ranges reached here. -/
def floorLogLoop (b n : ℕ) : ℕ → ℕ → ℕ
  | 0, k => k
  | fuel+1, k => if b ^ (k+1) ≤ n then floorLogLoop b n fuel (k+1) else k

/-- Exact floor logarithm, fuel large enough for every argument used below. -/
def floorLog (b n : ℕ) : ℕ := floorLogLoop b n 200 0

/-- Source lines 28-34, `find_power(radix)`:
`start_power = int(math.floor(math.log(u64_max, radix))) - 1`, climb while
`is_valid(radix**start_power)`, then `return start_power - 1`. -/
def find_power (radix : ℕ) : ℕ :=
  findPowerLoop radix 200 (floorLog radix u64_max - 1) - 1

/-- Bounded search computing the least `k` with `d ≤ 2^k`: the exact value
of `math.ceil(math.log2(d))` for `1 ≤ d` in the ranges reached here. -/
def ceilLog2Loop (d : ℕ) : ℕ → ℕ → ℕ
  | 0, k => k
  | fuel+1, k => if d ≤ 2^k then k else ceilLog2Loop d fuel (k+1)

/-- Exact ceiling base-2 logarithm, fuel large enough for every argument
used below. -/
def ceilLog2 (d : ℕ) : ℕ := ceilLog2Loop d 300 0

/-- Source lines 53-56, the reduction loop of `choose_multiplier`:
`while m_low // 2 < m_high // 2 and sh_post > 0: m_low //= 2; m_high //= 2;
sh_post -= 1`. Returns the final `(m_high, sh_post)`. The recursion is
structural on `sh_post`, exactly as the guard `sh_post > 0` demands. -/
def chooseMultiplierLoop : ℕ → ℕ → ℕ → ℕ × ℕ
  | _m_low, m_high, 0 => (m_high, 0)
  | m_low, m_high, s+1 =>
    if m_low / 2 < m_high / 2 then chooseMultiplierLoop (m_low / 2) (m_high / 2) s
    else (m_high, s+1)

/-- Source lines 36-59, `choose_multiplier(divisor, bits, is_signed=False)`:
`precision = bits` (minus one if signed), `div_bits = ceil(log2(divisor))`,
`sh_post = div_bits`, `m_low = 2**(bits+div_bits) // divisor`,
`m_high = (2**(bits+div_bits) + 2**(bits+div_bits-precision)) // divisor`,
then the halving loop; returns `(m_high, sh_post, div_bits)`. -/
def choose_multiplier (divisor bits : ℕ) (is_signed : Bool := false) : ℕ × ℕ × ℕ :=
  let precision := if is_signed then bits - 1 else bits
  let div_bits := ceilLog2 divisor
  let sh_post := div_bits
  let m_low := 2^(bits + div_bits) / divisor
  let m_high := (2^(bits + div_bits) + 2^(bits + div_bits - precision)) / divisor
  let r := chooseMultiplierLoop m_low m_high sh_post
  (r.1, r.2, div_bits)

/-- Fuel-indexed loop of `fast_shift` (source lines 67-69):
`n = 0; while divisor % 2**(n + 1) == 0: n += 1`. -/
def fastShiftLoop (d : ℕ) : ℕ → ℕ → ℕ
  | 0, n => n
  | fuel+1, n => if d % 2^(n+1) = 0 then fastShiftLoop d fuel (n+1) else n

/-- Source lines 61-70, `fast_shift(divisor)`: the trailing-zero count of
`divisor`, by the loop above. -/
def fast_shift (divisor : ℕ) : ℕ := fastShiftLoop divisor 256 0

/-- Source lines 72-74, `is_pow2(radix)`:
`radix == 2**int(math.log2(radix))`. -/
def is_pow2 (radix : ℕ) : Bool := radix == 2 ^ (floorLog 2 radix)

/-- The four algorithm tiers emitted by `divisor_constants`
(source lines 143-164): `print_pow2`, `print_fast`, `print_moderate`,
`print_slow`. -/
inductive Tier
  | powerOfTwo
  | fast
  | moderate
  | slow
deriving DecidableEq

/-- Tier selection of `divisor_constants` (source lines 146-164): power of
two first, else `slow` when `factor >= 2**128`, else `fast` when
`fast_shr != 0`, else `moderate`. -/
def radix_tier (radix : ℕ) : Tier :=
  if is_pow2 radix then .powerOfTwo
  else
    let digits := find_power radix
    let divisor := radix ^ digits
    let fast_shr := fast_shift divisor
    let cm := choose_multiplier divisor 128
    if cm.1 ≥ 2^128 then .slow
    else if fast_shr ≠ 0 then .fast
    else .moderate

/-- Number of digits consumed per division step for a radix: `find_power`
for non-powers-of-two (source line 152), and `64 // log2(radix)` for exact
powers of two (source line 80, `print_pow2`; spec section 3). -/
def generated_digits (radix : ℕ) : ℕ :=
  if is_pow2 radix then 64 / floorLog 2 radix else find_power radix

/-- The divisor constant the generator derives for a radix:
`radix ** digits` (source line 153; spec section 3 `divisor_value`). -/
def generated_divisor (radix : ℕ) : ℕ := radix ^ generated_digits radix

/-- Length of Python's `bin(d)` string: the `0b` prefix plus the binary
digits of `d` (`bin(0) = '0b0'`). -/
def bin_len (d : ℕ) : ℕ := 2 + (if d = 0 then 1 else floorLog 2 d + 1)

/-- Source line 129 in `print_slow`: `ctlz = 66 - len(bin(divisor))`. -/
def slow_ctlz (divisor : ℕ) : ℕ := 66 - bin_len divisor

/-- Number of binary digits of `d` (Python `int.bit_length`). -/
def bit_length (d : ℕ) : ℕ := if d = 0 then 0 else floorLog 2 d + 1

/-- Source lines 169-185, `u128_mulhi(x, y)`: limb-split high multiply.
`lo_mask = (1<<64) - 1`; `x & lo_mask` is `x % 2^64`, `x >> 64` is
`x / 2^64`. -/
def u128_mulhi (x y : ℕ) : ℕ :=
  let x_lo := x % 2^64
  let x_hi := x / 2^64
  let y_lo := y % 2^64
  let y_hi := y / 2^64
  let carry := x_lo * y_lo / 2^64
  let m := x_lo * y_hi + carry
  let high1 := m / 2^64
  let m_lo := m % 2^64
  let high2 := (x_hi * y_lo + m_lo) / 2^64
  x_hi * y_hi + high1 + high2

/-- Source lines 187-197, `udiv128(n, divisor=10**19)`: recompute
`(factor, factor_shr, _) = choose_multiplier(divisor, 128)` and
`shr = fast_shift(divisor)`; if `n < 1 << (64 + shr)` divide the shifted
operands, else take `u128_mulhi(n, factor) >> factor_shr`; the remainder is
`n - quotient * divisor`. -/
def udiv128 (n : ℕ) (divisor : ℕ := 10^19) : ℕ × ℕ :=
  let cm := choose_multiplier divisor 128
  let factor := cm.1
  let factor_shr := cm.2.1
  let shr := fast_shift divisor
  let quotient :=
    if n < 2^(64 + shr) then (n / 2^shr) / (divisor / 2^shr)
    else u128_mulhi n factor / 2^factor_shr
  (quotient, n - quotient * divisor)

/-! ### Basic facts about `is_valid` -/

/-- Validity implies the divisor fits in 64 bits (first clause of
`is_valid`). -/
theorem is_valid_le_u64 {x : ℕ} (h : is_valid x = true) : x ≤ u64_max := by
  have := h
  unfold is_valid at this
  simp only [Bool.and_eq_true, decide_eq_true_eq] at this
  exact this.1

/-- The rational comparison of `is_valid` is equivalent to the integer
comparison `u128_max < x^3` once `x` is positive, so `is_valid` decides
`x ≤ u64_max ∧ u128_max < x^3`. -/
theorem is_valid_iff_nat {x : ℕ} (hx : 0 < x) :
    is_valid x = true ↔ x ≤ u64_max ∧ u128_max < x^3 := by
  unfold is_valid
  simp only [Bool.and_eq_true, decide_eq_true_eq]
  refine and_congr_right fun _ => ?_
  have hx2 : (0:ℚ) < ((x^2 : ℕ) : ℚ) := by
    exact_mod_cast pow_pos hx 2
  rw [div_lt_iff hx2]
  rw [show ((x:ℚ) * ((x^2 : ℕ) : ℚ)) = ((x * x^2 : ℕ) : ℚ) by push_cast; ring]
  rw [Nat.cast_lt]
  rw [show x * x^2 = x^3 by ring]

/-! ### `u128_mulhi` computes the high 128 bits exactly -/

/-- Splitting a sum before dividing: `(a + b) / B = b / B + (a + b % B) / B`. -/
theorem add_div_split (a b B : ℕ) (hB : 0 < B) :
    (a + b) / B = b / B + (a + b % B) / B := by
  conv_lhs => rw [← Nat.div_add_mod b B]
  rw [show a + (B * (b / B) + b % B) = (a + b % B) + B * (b / B) by ring]
  rw [Nat.add_mul_div_left _ _ hB]
  omega

/-- The limb-splitting algorithm of `u128_mulhi` returns exactly
`⌊x*y / 2^128⌋`, for all natural inputs. -/
theorem u128_mulhi_eq (x y : ℕ) : u128_mulhi x y = x * y / 2^128 := by
  unfold u128_mulhi
  have hB : 0 < 2^64 := by positivity
  have h128 : (2:ℕ)^128 = 2^64 * 2^64 := by norm_num
  rw [h128, ← Nat.div_div_eq_div_mul]
  conv_rhs => rw [← Nat.div_add_mod x (2^64), ← Nat.div_add_mod y (2^64)]
  rw [show (2^64 * (x / 2^64) + x % 2^64) * (2^64 * (y / 2^64) + y % 2^64)
        = 2^64 * (2^64 * (x / 2^64 * (y / 2^64)) + (x / 2^64 * (y % 2^64)
            + x % 2^64 * (y / 2^64))) + x % 2^64 * (y % 2^64) by ring]
  rw [Nat.mul_add_div hB]
  rw [show 2^64 * (x / 2^64 * (y / 2^64)) + (x / 2^64 * (y % 2^64)
        + x % 2^64 * (y / 2^64)) + x % 2^64 * (y % 2^64) / 2^64
      = 2^64 * (x / 2^64 * (y / 2^64)) + (x / 2^64 * (y % 2^64)
        + (x % 2^64 * (y / 2^64) + x % 2^64 * (y % 2^64) / 2^64)) by ring]
  rw [Nat.mul_add_div hB]
  rw [add_div_split (x / 2^64 * (y % 2^64))
        (x % 2^64 * (y / 2^64) + x % 2^64 * (y % 2^64) / 2^64) (2^64) hB]
  ring

/-! ### `fast_shift` returns a power-of-two divisor of the input -/

/-- Loop invariant of `fast_shift`: if `2^n` divides `d` on entry, then
`2^result` divides `d` on exit, for any fuel. -/
theorem fastShiftLoop_dvd (d : ℕ) :
    ∀ fuel n, 2^n ∣ d → 2^(fastShiftLoop d fuel n) ∣ d := by
  intro fuel
  induction fuel with
  | zero => intro n h; exact h
  | succ f ih =>
    intro n h
    unfold fastShiftLoop
    split
    · exact ih (n+1) (Nat.dvd_of_mod_eq_zero ‹_›)
    · exact h

/-- The value returned by `fast_shift d` is a shift that loses no bits of
`d`. -/
theorem fast_shift_dvd (d : ℕ) : 2^(fast_shift d) ∣ d :=
  fastShiftLoop_dvd d 256 0 (by simpa using Nat.one_dvd d)

/-- The width-reduction shortcut of `udiv128` is exact division: shifting
both operands right by the trailing-zero count of the divisor does not
change the quotient. Holds for every dividend. -/
theorem shift_div_eq (n d : ℕ) :
    n / 2^(fast_shift d) / (d / 2^(fast_shift d)) = n / d := by
  rw [Nat.div_div_eq_div_mul, Nat.mul_div_cancel' (fast_shift_dvd d)]

/-! ### Characterization of `ceilLog2` -/

/-- Loop invariant of `ceilLog2Loop`: starting at `k` with no earlier
exponent admissible and enough fuel, the loop returns the least `j` with
`d ≤ 2^j`. -/
theorem ceilLog2Loop_char (d : ℕ) :
    ∀ fuel k, (∀ j, j < k → ¬ d ≤ 2^j) → d ≤ 2^(k + fuel) →
      d ≤ 2^(ceilLog2Loop d fuel k) ∧ ∀ j, d ≤ 2^j → ceilLog2Loop d fuel k ≤ j := by
  intro fuel
  induction fuel with
  | zero =>
    intro k hlt hle
    refine ⟨by simpa using hle, fun j hj => ?_⟩
    by_contra hcon
    exact hlt j (by simpa [ceilLog2Loop] using Nat.lt_of_not_le hcon) hj
  | succ f ih =>
    intro k hlt hle
    unfold ceilLog2Loop
    split
    · refine ⟨‹_›, fun j hj => ?_⟩
      by_contra hcon
      exact hlt j (Nat.lt_of_not_le hcon) hj
    · refine ih (k+1) (fun j hj => ?_) (by rw [show k + 1 + f = k + (f + 1) by omega]; exact hle)
      rcases Nat.lt_succ_iff_lt_or_eq.mp hj with h | h
      · exact hlt j h
      · subst h; assumption

/-- `ceilLog2 d` is exactly `⌈log2 d⌉`: the least exponent `j` with
`d ≤ 2^j` (for all `d` within the generous fuel bound). -/
theorem ceilLog2_char (d : ℕ) (h : d ≤ 2^300) :
    d ≤ 2^(ceilLog2 d) ∧ ∀ j, d ≤ 2^j → ceilLog2 d ≤ j :=
  ceilLog2Loop_char d 300 0 (fun j hj => absurd hj (Nat.not_lt_zero j)) (by simpa using h)

/-! ### The multiplier bracket invariant of the reduction loop -/

/-- Invariant of `chooseMultiplierLoop`: if on entry `m_low` and `m_high`
are the floors `2^(128+s)/d` and `(2^(128+s)+2^s)/d` with `m_low < m_high`,
then on exit the multiplier is the corresponding floor at the final shift
`t` and still exceeds `2^(128+t)/d`. -/
theorem cmLoop_bracket :
    ∀ (s m_low m_high d : ℕ), 0 < d →
      m_low = 2^(128+s) / d → m_high = (2^(128+s) + 2^s) / d → m_low < m_high →
      ∃ m t, chooseMultiplierLoop m_low m_high s = (m, t) ∧
        m = (2^(128+t) + 2^t) / d ∧ 2^(128+t) / d < m := by
  intro s
  induction s with
  | zero =>
    intro ml mh d hd hml hmh hlt
    exact ⟨mh, 0, rfl, hmh, hml ▸ hlt⟩
  | succ s ih =>
    intro ml mh d hd hml hmh hlt
    unfold chooseMultiplierLoop
    split
    · refine ih (ml / 2) (mh / 2) d hd ?_ ?_ ‹_›
      · rw [hml, Nat.div_div_eq_div_mul,
          show (2:ℕ)^(128 + (s+1)) = 2^(128+s) * 2 by rw [← pow_succ]; ring_nf,
          Nat.mul_div_mul_right _ _ (by norm_num : (0:ℕ) < 2)]
      · rw [hmh, Nat.div_div_eq_div_mul,
          show (2:ℕ)^(128 + (s+1)) + 2^(s+1) = (2^(128+s) + 2^s) * 2 by
            rw [Nat.add_mul, ← pow_succ, ← pow_succ]; ring_nf,
          Nat.mul_div_mul_right _ _ (by norm_num : (0:ℕ) < 2)]
    · exact ⟨mh, s+1, rfl, hmh, hml ▸ hlt⟩

/-- The multiplier and shift chosen by `choose_multiplier d 128` (unsigned)
bracket the scaled reciprocal: `2^(128+s) < m*d ≤ 2^(128+s) + 2^s`. This is
the Granlund-Montgomery condition that makes the multiply-high path exact. -/
theorem choose_multiplier_bracket (d : ℕ) (hd : 1 ≤ d) (hd64 : d ≤ 2^64) :
    ∃ m s ℓ, choose_multiplier d 128 = (m, s, ℓ) ∧
      2^(128+s) < m * d ∧ m * d ≤ 2^(128+s) + 2^s := by
  have hd0 : 0 < d := hd
  obtain ⟨hdl, -⟩ := ceilLog2_char d (le_trans hd64 (by norm_num))
  have h0 : 2^(128 + ceilLog2 d) / d < (2^(128 + ceilLog2 d) + 2^(ceilLog2 d)) / d := by
    have h1 : (2^(128 + ceilLog2 d) + d) / d ≤ (2^(128 + ceilLog2 d) + 2^(ceilLog2 d)) / d :=
      Nat.div_le_div_right (by omega)
    rw [Nat.add_div_right _ hd0] at h1
    omega
  obtain ⟨m, t, heq, hm, hlow⟩ :=
    cmLoop_bracket (ceilLog2 d) _ _ d hd0 rfl rfl h0
  refine ⟨m, t, ceilLog2 d, ?_, ?_, ?_⟩
  · unfold choose_multiplier
    simp only [Bool.false_eq_true, if_false]
    rw [show 128 + ceilLog2 d - 128 = ceilLog2 d by omega]
    rw [heq]
  · exact (Nat.div_lt_iff_lt_mul hd0).mp hlow
  · rw [hm]; exact Nat.div_mul_le_self _ d

/-! ### The Granlund-Montgomery division lemma -/

/-- Exactness of multiplicative division: if `2^(128+s) < m*d ≤
2^(128+s) + 2^s` then for every dividend below `2^128`,
`⌊m*n / 2^(128+s)⌋ = ⌊n/d⌋`. -/
theorem gm_div (d m s n : ℕ) (hd : 0 < d) (hn : n < 2^128)
    (hlow : 2^(128+s) < m * d) (hhigh : m * d ≤ 2^(128+s) + 2^s) :
    m * n / 2^(128+s) = n / d := by
  have hpow : 0 < (2:ℕ)^(128+s) := by positivity
  set q := n / d with hq
  have hqd : d * q + n % d = n := Nat.div_add_mod n d
  have hmod : n % d < d := Nat.mod_lt n hd
  -- upper bound: m*n < (q+1) * 2^(128+s)
  have hup : m * n < (q + 1) * 2^(128+s) := by
    have h1 : m * n * d ≤ (2^(128+s) + 2^s) * n := by
      calc m * n * d = m * d * n := by ring
        _ ≤ (2^(128+s) + 2^s) * n := Nat.mul_le_mul_right n hhigh
    have hn1 : n + 1 ≤ d * q + d := by omega
    have h2 : (2^(128+s) + 2^s) * n < (q + 1) * 2^(128+s) * d := by
      have ha : 2^s * n < 2^s * 2^128 := mul_lt_mul_of_pos_left hn (by positivity)
      have hb : (2:ℕ)^(128+s) = 2^s * 2^128 := by rw [pow_add]; ring
      calc (2^(128+s) + 2^s) * n = 2^(128+s) * n + 2^s * n := by ring
        _ < 2^(128+s) * n + 2^(128+s) := by omega
        _ = 2^(128+s) * (n + 1) := by ring
        _ ≤ 2^(128+s) * (d * q + d) := Nat.mul_le_mul_left _ hn1
        _ = (q + 1) * 2^(128+s) * d := by ring
    have h3 : m * n * d < (q + 1) * 2^(128+s) * d := lt_of_le_of_lt h1 h2
    exact lt_of_mul_lt_mul_right h3 (Nat.zero_le d)
  -- lower bound: q * 2^(128+s) ≤ m*n
  have hlo : q * 2^(128+s) ≤ m * n := by
    calc q * 2^(128+s) ≤ q * (m * d) := Nat.mul_le_mul_left _ (le_of_lt hlow)
      _ = m * (d * q) := by ring
      _ ≤ m * n := Nat.mul_le_mul_left _ (by omega)
  have hle : q ≤ m * n / 2^(128+s) := (Nat.le_div_iff_mul_le hpow).mpr hlo
  have hlt : m * n / 2^(128+s) < q + 1 := (Nat.div_lt_iff_lt_mul hpow).mpr hup
  omega

/-! ### Exactness of `udiv128` -/

/-- Both branches of `udiv128` compute the exact quotient and remainder for
every divisor in `[1, 2^64]` and every 128-bit dividend. -/
theorem udiv128_exact (d n : ℕ) (hd : 1 ≤ d) (hd64 : d ≤ 2^64) (hn : n ≤ u128_max) :
    udiv128 n d = (n / d, n % d) := by
  have hd0 : 0 < d := hd
  have hn128 : n < 2^128 := by unfold u128_max at hn; omega
  obtain ⟨m, s, ℓ, hcm, hlow, hhigh⟩ := choose_multiplier_bracket d hd hd64
  have hq : (if n < 2^(64 + fast_shift d) then n / 2^(fast_shift d) / (d / 2^(fast_shift d))
      else u128_mulhi n m / 2^s) = n / d := by
    split
    · exact shift_div_eq n d
    · rw [u128_mulhi_eq, Nat.div_div_eq_div_mul, ← pow_add,
        show n * m = m * n by ring]
      exact gm_div d m s n hd0 hn128 hlow hhigh
  have hrem : n - n / d * d = n % d := by
    have h1 : n / d * d + n % d = n := Nat.div_add_mod' n d
    omega
  unfold udiv128
  rw [hcm]
  simp only
  rw [hq, hrem]

/-! ### Termination of the two fuel-indexed loops -/

/-- The guard of `find_power`'s loop eventually fails: beyond exponent 63,
`radix^p` exceeds `u64_max`, so `is_valid` is false. -/
theorem findPower_guard_false (r p : ℕ) (h2 : 2 ≤ r) (hp : 64 ≤ p) :
    is_valid (r ^ p) = false := by
  by_contra h
  have hv : is_valid (r ^ p) = true := by
    revert h; cases is_valid (r ^ p) <;> simp
  have h1 : r ^ p ≤ u64_max := is_valid_le_u64 hv
  have h2p : 2 ^ p ≤ r ^ p := Nat.pow_le_pow_left h2 p
  have h3 : 2 ^ 64 ≤ 2 ^ p := Nat.pow_le_pow_right (by norm_num) hp
  unfold u64_max at h1
  omega

/-- Once the guard fails, `findPowerLoop` returns its argument whatever the
fuel. -/
theorem findPowerLoop_exit (r p : ℕ) (h : is_valid (r ^ p) = false) :
    ∀ g, findPowerLoop r g p = p := by
  intro g
  cases g with
  | zero => rfl
  | succ g => unfold findPowerLoop; rw [h]; simp

/-- Fuel-indifference of `find_power`'s loop: any fuel that brings the
power past 64 yields the same result, because the validity guard must fail
by then. -/
theorem findPowerLoop_stab (r : ℕ) (h2 : 2 ≤ r) :
    ∀ f p g, 65 ≤ p + f → 65 ≤ p + g → findPowerLoop r f p = findPowerLoop r g p := by
  intro f
  induction f with
  | zero =>
    intro p g hf hg
    have hgf := findPower_guard_false r p h2 (by omega)
    rw [findPowerLoop_exit r p hgf g]
    rfl
  | succ f ih =>
    intro p g hf hg
    by_cases hv : is_valid (r ^ p) = true
    · have hple : p ≤ 63 := by
        have h1 : r ^ p ≤ u64_max := is_valid_le_u64 hv
        have h2p : 2 ^ p ≤ r ^ p := Nat.pow_le_pow_left h2 p
        by_contra hcon
        have h3 : 2 ^ 64 ≤ 2 ^ p := Nat.pow_le_pow_right (by norm_num) (by omega)
        unfold u64_max at h1
        omega
      obtain ⟨g2, rfl⟩ : ∃ g2, g = g2 + 1 := ⟨g - 1, by omega⟩
      unfold findPowerLoop
      rw [hv]
      simp only [if_true]
      exact ih (p+1) g2 (by omega) (by omega)
    · have hv2 : is_valid (r ^ p) = false := by
        revert hv; cases is_valid (r ^ p) <;> simp
      rw [findPowerLoop_exit r p hv2 (f+1), findPowerLoop_exit r p hv2 g]

/-- Once the guard of `fast_shift`'s loop fails, the loop returns its
argument whatever the fuel. -/
theorem fastShiftLoop_exit (d n : ℕ) (h : ¬ d % 2^(n+1) = 0) :
    ∀ g, fastShiftLoop d g n = n := by
  intro g
  cases g with
  | zero => rfl
  | succ g => unfold fastShiftLoop; rw [if_neg h]

/-- Fuel-indifference of `fast_shift`'s loop on a nonzero divisor: any fuel
that brings `2^(n+fuel)` past the divisor yields the same result, because
`2^(n+1)` can divide a positive `d` only while `2^(n+1) ≤ d`. -/
theorem fastShiftLoop_stab (d : ℕ) (hd : 1 ≤ d) :
    ∀ f n g, d < 2^(n+f) → d < 2^(n+g) → fastShiftLoop d f n = fastShiftLoop d g n := by
  intro f
  induction f with
  | zero =>
    intro n g hf hg
    have hguard : ¬ d % 2^(n+1) = 0 := by
      intro h
      have hle : 2^(n+1) ≤ d := Nat.le_of_dvd (by omega) (Nat.dvd_of_mod_eq_zero h)
      have : (2:ℕ)^n < 2^(n+1) := Nat.pow_lt_pow_right (by norm_num) (by omega)
      simp only [Nat.add_zero] at hf
      omega
    rw [fastShiftLoop_exit d n hguard g]
    rfl
  | succ f ih =>
    intro n g hf hg
    by_cases h : d % 2^(n+1) = 0
    · have hle : 2^(n+1) ≤ d := Nat.le_of_dvd (by omega) (Nat.dvd_of_mod_eq_zero h)
      have hg2 : 2 ≤ g := by
        by_contra hcon
        have hgle : n + g ≤ n + 1 := by omega
        have : (2:ℕ)^(n+g) ≤ 2^(n+1) := Nat.pow_le_pow_right (by norm_num) hgle
        omega
      obtain ⟨g2, rfl⟩ : ∃ g2, g = g2 + 1 := ⟨g - 1, by omega⟩
      unfold fastShiftLoop
      rw [if_pos h, if_pos h]
      refine ih (n+1) g2 ?_ ?_
      · rw [show n + 1 + f = n + (f + 1) by omega]; exact hf
      · rw [show n + 1 + g2 = n + (g2 + 1) by omega]; exact hg
    · rw [fastShiftLoop_exit d n h (f+1), fastShiftLoop_exit d n h g]

/-- On divisor 0 the guard of `fast_shift`'s loop never fails
(`0 % 2^(n+1) == 0` always), so the loop consumes all its fuel: the source
loop would diverge there. -/
theorem fastShiftLoop_zero (f : ℕ) : ∀ n, fastShiftLoop 0 f n = n + f := by
  induction f with
  | zero => intro n; rfl
  | succ f ih =>
    intro n
    unfold fastShiftLoop
    rw [if_pos (Nat.zero_mod _)]
    rw [ih (n+1)]
    omega

/-! ### Shared computational facts about the generated divisors -/

/-- Every generated divisor is positive and fits in `[1, 2^64]`. -/
theorem generated_divisor_bounds :
    ∀ r, r < 37 → 2 ≤ r → 1 ≤ generated_divisor r ∧ generated_divisor r ≤ 2^64 :=
  of_decide_eq_true (by with_unfolding_all rfl)

/-! ### Claim theorems -/

/-- C2: for all `x, y` in `[0, 2^128-1]`, `u128_mulhi x y` returns exactly
the high 128 bits `⌊x*y / 2^128⌋` of the 256-bit product, and the two
intermediate limb sums of the algorithm (`m = x_lo*y_hi + carry` and
`x_hi*y_lo + m_lo`) never exceed `2^129 - 1`. -/
theorem u128_mulhi_high_128_bits :
    ∀ x, x ≤ u128_max → ∀ y, y ≤ u128_max →
      u128_mulhi x y = x * y / 2^128 ∧
      x % 2^64 * (y / 2^64) + x % 2^64 * (y % 2^64) / 2^64 ≤ 2^129 - 1 ∧
      x / 2^64 * (y % 2^64)
        + (x % 2^64 * (y / 2^64) + x % 2^64 * (y % 2^64) / 2^64) % 2^64 ≤ 2^129 - 1 := by
  intro x hx y hy
  have hB : 0 < (2:ℕ)^64 := by positivity
  have hxm : x % 2^64 ≤ 2^64 - 1 := by have := Nat.mod_lt x hB; omega
  have hym : y % 2^64 ≤ 2^64 - 1 := by have := Nat.mod_lt y hB; omega
  have hmax : u128_max / 2^64 = 2^64 - 1 := by decide
  have hxd : x / 2^64 ≤ 2^64 - 1 := by
    have h : x / 2^64 ≤ u128_max / 2^64 := Nat.div_le_div_right hx
    rw [hmax] at h
    exact h
  have hyd : y / 2^64 ≤ 2^64 - 1 := by
    have h : y / 2^64 ≤ u128_max / 2^64 := Nat.div_le_div_right hy
    rw [hmax] at h
    exact h
  refine ⟨u128_mulhi_eq x y, ?_, ?_⟩
  · have h3 : x % 2^64 * (y / 2^64) ≤ (2^64-1) * (2^64-1) := Nat.mul_le_mul hxm hyd
    have h4 : x % 2^64 * (y % 2^64) ≤ (2^64-1) * (2^64-1) := Nat.mul_le_mul hxm hym
    have h5 : x % 2^64 * (y % 2^64) / 2^64 ≤ (2^64-1) * (2^64-1) / 2^64 :=
      Nat.div_le_div_right h4
    have h6 : ((2:ℕ)^64-1) * (2^64-1) / 2^64 = 2^64 - 2 := by decide
    rw [h6] at h5
    have h7 : ((2:ℕ)^64-1) * (2^64-1) + (2^64 - 2) ≤ 2^129 - 1 := by decide
    omega
  · have h3 : x / 2^64 * (y % 2^64) ≤ (2^64-1) * (2^64-1) := Nat.mul_le_mul hxd hym
    have h4 : (x % 2^64 * (y / 2^64) + x % 2^64 * (y % 2^64) / 2^64) % 2^64 ≤ 2^64 - 1 := by
      have := Nat.mod_lt (x % 2^64 * (y / 2^64) + x % 2^64 * (y % 2^64) / 2^64) hB
      omega
    have h7 : ((2:ℕ)^64-1) * (2^64-1) + (2^64 - 1) ≤ 2^129 - 1 := by decide
    omega

/-- Witness for C2 at the boundary input `x = y = 2^128 - 1`. -/
theorem u128_mulhi_high_128_bits_witness :
    u128_mulhi u128_max u128_max = u128_max * u128_max / 2^128 ∧
    u128_max % 2^64 * (u128_max / 2^64)
      + u128_max % 2^64 * (u128_max % 2^64) / 2^64 ≤ 2^129 - 1 ∧
    u128_max / 2^64 * (u128_max % 2^64)
      + (u128_max % 2^64 * (u128_max / 2^64)
        + u128_max % 2^64 * (u128_max % 2^64) / 2^64) % 2^64 ≤ 2^129 - 1 :=
  u128_mulhi_high_128_bits u128_max (le_refl u128_max) u128_max (le_refl u128_max)

/-- C4: for a divisor with `fast_shift d` trailing zero bits and any
dividend `n < 2^(64 + fast_shift d)`, the reduced-width branch
`(n >> shr) // (d >> shr)` equals exact division `⌊n/d⌋`, and also equals
the multiply-high branch `u128_mulhi n factor >> factor_shr`. -/
theorem fast_branch_exact_and_agrees :
    ∀ d, 1 ≤ d → d ≤ 2^64 → ∀ n, n < 2^(64 + fast_shift d) →
      n / 2^(fast_shift d) / (d / 2^(fast_shift d)) = n / d ∧
      n / 2^(fast_shift d) / (d / 2^(fast_shift d)) =
        u128_mulhi n (choose_multiplier d 128).1 / 2^((choose_multiplier d 128).2.1) := by
  intro d hd hd64 n hn
  refine ⟨shift_div_eq n d, ?_⟩
  obtain ⟨m, s, ℓ, hcm, hlow, hhigh⟩ := choose_multiplier_bracket d hd hd64
  rw [hcm]
  have hfs : fast_shift d ≤ 64 := by
    have h1 : 2^(fast_shift d) ≤ d := Nat.le_of_dvd (by omega) (fast_shift_dvd d)
    exact (Nat.pow_le_pow_iff_right (by norm_num)).mp (le_trans h1 hd64)
  have hn128 : n < 2^128 := lt_of_lt_of_le hn
    (Nat.pow_le_pow_right (by norm_num) (by omega))
  rw [shift_div_eq n d, u128_mulhi_eq, Nat.div_div_eq_div_mul, ← pow_add,
    show n * m = m * n by ring]
  exact (gm_div d m s n hd hn128 hlow hhigh).symm

/-- Witness for C4 at `d = 10^19`, `n = 10^20` (which is below
`2^(64+19)`). -/
theorem fast_branch_exact_and_agrees_witness :
    10^20 / 2^(fast_shift (10^19)) / (10^19 / 2^(fast_shift (10^19))) = 10^20 / 10^19 ∧
    10^20 / 2^(fast_shift (10^19)) / (10^19 / 2^(fast_shift (10^19))) =
      u128_mulhi (10^20) (choose_multiplier (10^19) 128).1
        / 2^((choose_multiplier (10^19) 128).2.1) :=
  fast_branch_exact_and_agrees (10^19) (by norm_num) (by norm_num) (10^20) (by decide)

/-- C1: for every divisor produced by the generator (one per radix in
`[2,36]`; for radix 10 it is the default `10^19`) and every dividend
`n ≤ 2^128 - 1`, `udiv128` returns the exact floor quotient and remainder,
so `quotient * divisor + remainder = n` and `remainder < divisor`. -/
theorem udiv128_exact_on_generated_divisors :
    (∀ r, r < 37 → 2 ≤ r → ∀ n, n ≤ u128_max →
      (udiv128 n (generated_divisor r)).1 = n / generated_divisor r ∧
      (udiv128 n (generated_divisor r)).2
        = n - n / generated_divisor r * generated_divisor r ∧
      (udiv128 n (generated_divisor r)).1 * generated_divisor r
        + (udiv128 n (generated_divisor r)).2 = n ∧
      (udiv128 n (generated_divisor r)).2 < generated_divisor r) ∧
    generated_divisor 10 = 10^19 := by
  constructor
  · intro r hr h2 n hn
    obtain ⟨hd1, hd64⟩ := generated_divisor_bounds r hr h2
    have h := udiv128_exact (generated_divisor r) n hd1 hd64 hn
    rw [h]
    dsimp only
    have hdm : n / generated_divisor r * generated_divisor r + n % generated_divisor r = n :=
      Nat.div_add_mod' n _
    exact ⟨rfl, by omega, by omega, Nat.mod_lt n hd1⟩
  · exact of_decide_eq_true (by with_unfolding_all rfl)

/-- Witness for C1 at radix 10 (the default divisor `10^19`) and dividend
`3^40`. -/
theorem udiv128_exact_on_generated_divisors_witness :
    (udiv128 (3^40) (generated_divisor 10)).1 = 3^40 / generated_divisor 10 ∧
    (udiv128 (3^40) (generated_divisor 10)).2
      = 3^40 - 3^40 / generated_divisor 10 * generated_divisor 10 ∧
    (udiv128 (3^40) (generated_divisor 10)).1 * generated_divisor 10
      + (udiv128 (3^40) (generated_divisor 10)).2 = 3^40 ∧
    (udiv128 (3^40) (generated_divisor 10)).2 < generated_divisor 10 :=
  udiv128_exact_on_generated_divisors.1 10 (by norm_num) (by norm_num) (3^40) (by decide)

/-- C3: for every radix in `[2,36]`, `find_power radix` is the largest
exponent `d` with `is_valid (radix^d)`; validity holds at the returned
exponent and fails at the next one; and `find_power 10 = 19`, so the
divisor for radix 10 is `10^19`. -/
theorem find_power_largest_valid :
    (∀ r, r < 37 → 2 ≤ r →
      is_valid (r ^ find_power r) = true ∧
      is_valid (r ^ (find_power r + 1)) = false ∧
      ∀ d, is_valid (r ^ d) = true → d ≤ find_power r) ∧
    find_power 10 = 19 := by
  have HB : ∀ r, r < 37 → 2 ≤ r →
      is_valid (r ^ find_power r) = true ∧ is_valid (r ^ (find_power r + 1)) = false :=
    of_decide_eq_true (by with_unfolding_all rfl)
  refine ⟨fun r hr h2 => ?_, of_decide_eq_true (by with_unfolding_all rfl)⟩
  obtain ⟨h1, h2v⟩ := HB r hr h2
  refine ⟨h1, h2v, fun d hd => ?_⟩
  by_contra hcon
  have hd1 : find_power r + 1 ≤ d := by omega
  have hr0 : 0 < r := by omega
  have hpos : 0 < r ^ find_power r := pow_pos hr0 _
  have hcube : u128_max < (r ^ find_power r)^3 := ((is_valid_iff_nat hpos).mp h1).2
  have hmono : r ^ find_power r ≤ r ^ (find_power r + 1) :=
    Nat.pow_le_pow_right hr0 (by omega)
  have hcube1 : u128_max < (r ^ (find_power r + 1))^3 :=
    lt_of_lt_of_le hcube (Nat.pow_le_pow_left hmono 3)
  have hpos1 : 0 < r ^ (find_power r + 1) := pow_pos hr0 _
  have hbig : ¬ r ^ (find_power r + 1) ≤ u64_max := by
    intro hle
    have hvt : is_valid (r ^ (find_power r + 1)) = true :=
      (is_valid_iff_nat hpos1).mpr ⟨hle, hcube1⟩
    exact Bool.noConfusion (hvt.symm.trans h2v)
  have hge : r ^ (find_power r + 1) ≤ r ^ d := Nat.pow_le_pow_right hr0 hd1
  exact hbig (le_trans hge (is_valid_le_u64 hd))

/-- Witness for C3 at radix 10. -/
theorem find_power_largest_valid_witness :
    is_valid (10 ^ find_power 10) = true ∧ find_power 10 = 19 :=
  ⟨(find_power_largest_valid.1 10 (by norm_num) (by norm_num)).1,
   find_power_largest_valid.2⟩

/-- C5: every radix in `[2,36]` is assigned exactly one tier, by the
cascade: PowerOfTwo iff the radix is an exact power of two (hence
2, 4, 8, 16, 32 are PowerOfTwo); otherwise Slow iff the chosen multiplier
reaches `2^128` (the overflow is routed, not a fault); otherwise Fast iff
`fast_shift` is nonzero; otherwise Moderate. Consequently Fast and
Moderate multipliers are below `2^128`. -/
theorem tier_classification :
    ∀ r, r < 37 → 2 ≤ r →
      (radix_tier r = Tier.powerOfTwo ↔ is_pow2 r = true) ∧
      ((r = 2 ∨ r = 4 ∨ r = 8 ∨ r = 16 ∨ r = 32) → radix_tier r = Tier.powerOfTwo) ∧
      (radix_tier r = Tier.slow ↔
        is_pow2 r = false ∧ 2^128 ≤ (choose_multiplier (r ^ find_power r) 128).1) ∧
      (radix_tier r = Tier.fast ↔
        is_pow2 r = false ∧ (choose_multiplier (r ^ find_power r) 128).1 < 2^128 ∧
          fast_shift (r ^ find_power r) ≠ 0) ∧
      (radix_tier r = Tier.moderate ↔
        is_pow2 r = false ∧ (choose_multiplier (r ^ find_power r) 128).1 < 2^128 ∧
          fast_shift (r ^ find_power r) = 0) ∧
      ((radix_tier r = Tier.fast ∨ radix_tier r = Tier.moderate) →
        (choose_multiplier (r ^ find_power r) 128).1 < 2^128) := by
  intro r hr h2
  interval_cases r <;> exact of_decide_eq_true (by with_unfolding_all rfl)

/-- Witness for C5: radix 16 is PowerOfTwo (via the explicit power-of-two
clause of the theorem applied at 16). -/
theorem tier_classification_witness : radix_tier 16 = Tier.powerOfTwo :=
  (tier_classification 16 (by norm_num) (by norm_num)).2.1 (by norm_num)

/-- Structural characterization of the reduction loop: it halves both
bounds some `k` times, decrementing the shift each time; the halving
condition held before each step, and on exit either the shift is exhausted
or the condition fails. -/
theorem cmLoop_char :
    ∀ (s m_low m_high : ℕ),
      ∃ k, k ≤ s ∧ chooseMultiplierLoop m_low m_high s = (m_high / 2^k, s - k) ∧
        (∀ j, j < k → m_low / 2^j / 2 < m_high / 2^j / 2) ∧
        (s - k = 0 ∨ ¬(m_low / 2^k / 2 < m_high / 2^k / 2)) := by
  intro s
  induction s with
  | zero =>
    intro ml mh
    exact ⟨0, le_refl 0, by simp [chooseMultiplierLoop],
      fun j hj => absurd hj (Nat.not_lt_zero j), Or.inl rfl⟩
  | succ s ih =>
    intro ml mh
    have hml : ∀ j, ml / 2 / 2^j = ml / 2^(j+1) := fun j => by
      rw [Nat.div_div_eq_div_mul, show (2:ℕ) * 2^j = 2^(j+1) by rw [pow_succ]; ring]
    have hmh : ∀ j, mh / 2 / 2^j = mh / 2^(j+1) := fun j => by
      rw [Nat.div_div_eq_div_mul, show (2:ℕ) * 2^j = 2^(j+1) by rw [pow_succ]; ring]
    unfold chooseMultiplierLoop
    split
    case isTrue hcond =>
      obtain ⟨k, hk, heq, hconds, hexit⟩ := ih (ml / 2) (mh / 2)
      refine ⟨k+1, by omega, ?_, ?_, ?_⟩
      · rw [heq, hmh k, show s - k = s + 1 - (k+1) by omega]
      · intro j hj
        cases j with
        | zero => simpa using hcond
        | succ j =>
          have h1 := hconds j (by omega)
          rw [hml j, hmh j] at h1
          exact h1
      · rcases hexit with h | h
        · exact Or.inl (by omega)
        · rw [hml k, hmh k] at h
          exact Or.inr h
    case isFalse hcond =>
      refine ⟨0, Nat.zero_le _, by simp, fun j hj => absurd hj (Nat.not_lt_zero j),
        Or.inr ?_⟩
      simpa using hcond

/-- C6: for every positive divisor at most `2^64 - 1`, with `bits = 128`
and unsigned, `choose_multiplier` returns exactly what the documented
algorithm prescribes: `divisor_bit_length` is the true `⌈log2 divisor⌉`
(the least `j` with `divisor ≤ 2^j`); the returned multiplier is the
initial `m_high = ⌊(2^(128+ℓ) + 2^ℓ)/divisor⌋` halved `k` times and the
returned shift is `ℓ - k`, where the halving condition
`m_low/2 < m_high/2` held before each of the `k` steps and on exit either
the shift is zero or the condition fails. The function is total; no bound
on the returned multiplier is assumed. -/
theorem choose_multiplier_follows_algorithm :
    ∀ d, 1 ≤ d → d ≤ u64_max →
      (d ≤ 2^(ceilLog2 d) ∧ ∀ j, d ≤ 2^j → ceilLog2 d ≤ j) ∧
      ∃ k, k ≤ ceilLog2 d ∧
        choose_multiplier d 128 =
          ((2^(128 + ceilLog2 d) + 2^(ceilLog2 d)) / d / 2^k, ceilLog2 d - k, ceilLog2 d) ∧
        (∀ j, j < k →
          2^(128 + ceilLog2 d) / d / 2^j / 2
            < (2^(128 + ceilLog2 d) + 2^(ceilLog2 d)) / d / 2^j / 2) ∧
        (ceilLog2 d - k = 0 ∨
          ¬(2^(128 + ceilLog2 d) / d / 2^k / 2
            < (2^(128 + ceilLog2 d) + 2^(ceilLog2 d)) / d / 2^k / 2)) := by
  intro d hd hdmax
  have h300 : d ≤ 2^300 := le_trans hdmax (by unfold u64_max; norm_num)
  refine ⟨ceilLog2_char d h300, ?_⟩
  obtain ⟨k, hk, heq, hconds, hexit⟩ :=
    cmLoop_char (ceilLog2 d) (2^(128 + ceilLog2 d) / d)
      ((2^(128 + ceilLog2 d) + 2^(ceilLog2 d)) / d)
  refine ⟨k, hk, ?_, hconds, hexit⟩
  unfold choose_multiplier
  simp only [Bool.false_eq_true, if_false]
  rw [show 128 + ceilLog2 d - 128 = ceilLog2 d by omega]
  rw [heq]

/-- Witness for C6 at `d = 3^40`, a generated divisor whose returned
multiplier overflows 128 bits (radix 3 is routed to the Slow tier), showing
the characterization holds there as well. -/
theorem choose_multiplier_follows_algorithm_witness :
    ((3^40 ≤ 2^(ceilLog2 (3^40)) ∧ ∀ j, 3^40 ≤ 2^j → ceilLog2 (3^40) ≤ j) ∧
      ∃ k, k ≤ ceilLog2 (3^40) ∧
        choose_multiplier (3^40) 128 =
          ((2^(128 + ceilLog2 (3^40)) + 2^(ceilLog2 (3^40))) / 3^40 / 2^k,
            ceilLog2 (3^40) - k, ceilLog2 (3^40)) ∧
        (∀ j, j < k →
          2^(128 + ceilLog2 (3^40)) / 3^40 / 2^j / 2
            < (2^(128 + ceilLog2 (3^40)) + 2^(ceilLog2 (3^40))) / 3^40 / 2^j / 2) ∧
        (ceilLog2 (3^40) - k = 0 ∨
          ¬(2^(128 + ceilLog2 (3^40)) / 3^40 / 2^k / 2
            < (2^(128 + ceilLog2 (3^40)) + 2^(ceilLog2 (3^40))) / 3^40 / 2^k / 2))) ∧
    2^128 ≤ (choose_multiplier (3^40) 128).1 :=
  ⟨choose_multiplier_follows_algorithm (3^40) (by norm_num) (by decide),
   of_decide_eq_true (by with_unfolding_all rfl)⟩

/-- Counterexample to C7 as stated: radix 3 is routed to the Slow tier,
and the emitted `leading_zero_count` for its divisor `3^40` (bit length
64) is `66 - len(bin(divisor)) = 0`, not `66 - bitlength(divisor) = 2`. -/
theorem slow_ctlz_not_66_minus_bitlength :
    radix_tier 3 = Tier.slow ∧
    slow_ctlz (3 ^ find_power 3) ≠ 66 - bit_length (3 ^ find_power 3) :=
  of_decide_eq_true (by with_unfolding_all rfl)

/-- C7 (amended): for every radix routed to the Slow tier, the emitted
`leading_zero_count` equals `66 - len(bin(divisor_value))`, which is
`64 - bitlength(divisor_value)` (two less than the claimed value, since
`bin` prefixes the two characters `0b`). -/
theorem slow_ctlz_eq_64_minus_bitlength :
    ∀ r, r < 37 → 2 ≤ r → radix_tier r = Tier.slow →
      slow_ctlz (r ^ find_power r) = 64 - bit_length (r ^ find_power r) :=
  of_decide_eq_true (by with_unfolding_all rfl)

/-- Witness for the amended C7 at the Slow radix 3. -/
theorem slow_ctlz_eq_64_minus_bitlength_witness :
    slow_ctlz (3 ^ find_power 3) = 64 - bit_length (3 ^ find_power 3) :=
  slow_ctlz_eq_64_minus_bitlength 3 (by norm_num) (by norm_num)
    (of_decide_eq_true (by with_unfolding_all rfl))

/-- Counterexample to C8 as stated: the exponent `d = 1` is not valid for
radix 2 (indeed `2^3` is nowhere near `2^128`), so `is_valid 2 = false`. -/
theorem is_valid_radix_itself_false : is_valid 2 = false :=
  of_decide_eq_true (by with_unfolding_all rfl)

/-- C8 (amended): no radix in `[2,36]` is itself a valid power (`d = 1`
always fails the `u128_max < x^3` side of the check), but every such radix
does have at least one valid power, namely `d = find_power radix`. -/
theorem radix_itself_invalid_but_some_power_valid :
    ∀ r, r < 37 → 2 ≤ r →
      is_valid r = false ∧ is_valid (r ^ find_power r) = true :=
  of_decide_eq_true (by with_unfolding_all rfl)

/-- Witness for the amended C8 at radix 10. -/
theorem radix_itself_invalid_but_some_power_valid_witness :
    is_valid 10 = false ∧ is_valid (10 ^ find_power 10) = true :=
  radix_itself_invalid_but_some_power_valid 10 (by norm_num) (by norm_num)

/-- C9: all loops terminate on reachable inputs. The `find_power` loop is
fuel-indifferent once the fuel passes 65 because the validity guard fails
from exponent 64 on (the power exceeds `u64_max`); the `fast_shift` loop
is fuel-indifferent on every generated divisor (all nonzero) because a
power of two can divide a positive number only while not exceeding it; and
on divisor 0 — unreachable under the radix precondition — the `fast_shift`
guard never fails, so the loop consumes however much fuel it is given (the
source loop would diverge). -/
theorem generator_loops_terminate :
    (∀ r, r < 37 → 2 ≤ r → ∀ f g, 65 ≤ f → 65 ≤ g →
      findPowerLoop r f (floorLog r u64_max - 1)
        = findPowerLoop r g (floorLog r u64_max - 1)) ∧
    (∀ r, r < 37 → 2 ≤ r → ∀ p, 64 ≤ p → is_valid (r ^ p) = false) ∧
    (∀ r, r < 37 → 2 ≤ r → generated_divisor r ≠ 0 ∧
      ∀ f g, 65 ≤ f → 65 ≤ g →
        fastShiftLoop (generated_divisor r) f 0
          = fastShiftLoop (generated_divisor r) g 0) ∧
    (∀ f, fastShiftLoop 0 f 0 = f) := by
  refine ⟨?_, ?_, ?_, ?_⟩
  · intro r _ h2 f g hf hg
    exact findPowerLoop_stab r h2 f _ g (by omega) (by omega)
  · intro r _ h2 p hp
    exact findPower_guard_false r p h2 hp
  · intro r hr h2
    obtain ⟨hd1, hd64⟩ := generated_divisor_bounds r hr h2
    refine ⟨by omega, fun f g hf hg => ?_⟩
    have hf2 : generated_divisor r < 2^(0 + f) := by
      have : (2:ℕ)^64 < 2^(0 + f) := Nat.pow_lt_pow_right (by norm_num) (by omega)
      omega
    have hg2 : generated_divisor r < 2^(0 + g) := by
      have : (2:ℕ)^64 < 2^(0 + g) := Nat.pow_lt_pow_right (by norm_num) (by omega)
      omega
    exact fastShiftLoop_stab (generated_divisor r) hd1 f 0 g hf2 hg2
  · intro f
    simpa using fastShiftLoop_zero f 0

/-- Witness for C9 at radix 10 with fuels 65 and 66 and, for the divergent
case, divisor 0 with fuel 7. -/
theorem generator_loops_terminate_witness :
    findPowerLoop 10 65 (floorLog 10 u64_max - 1)
      = findPowerLoop 10 66 (floorLog 10 u64_max - 1) ∧
    is_valid (10 ^ 64) = false ∧
    fastShiftLoop (generated_divisor 10) 65 0
      = fastShiftLoop (generated_divisor 10) 66 0 ∧
    fastShiftLoop 0 7 0 = 7 :=
  ⟨generator_loops_terminate.1 10 (by norm_num) (by norm_num) 65 66
      (by norm_num) (by norm_num),
   generator_loops_terminate.2.1 10 (by norm_num) (by norm_num) 64 (le_refl 64),
   (generator_loops_terminate.2.2.1 10 (by norm_num) (by norm_num)).2 65 66
      (by norm_num) (by norm_num),
   generator_loops_terminate.2.2.2 7⟩
